import Mathlib

/-!
# Verification of the exchange-rates report generator core

Shallow embedding of the cache-reconciliation and streaming-analytics engine
of the `Exchange_rates_report_generator` repository, together with theorems
settling the specification claims about it.

Modelling choices:
* calendar dates are integers counting days (one day = `1`);
* currency rates are rationals (`float` arithmetic in the source is exact on
  every value appearing here);
* currency codes are natural numbers (the source compares codes only for
  equality and for the ordering used by `groupby`);
* a Python function that can raise on some input returns an `Option`/custom
  outcome type, `none` standing for the raised exception.
-/

namespace ExchangeRates

/-! ## Gap calculator

`_calculate_missing_date_intervals` from `app/services/data_collection_service.py`.
The coverage stream is a list of chunks, each chunk the `date` column of one
DataFrame yielded by the database iterator.  The Python function raises a
`TypeError` when the iterator yields no chunk at all: `prev_date` is then still
`None` at the final `prev_date < end_date` comparison.  This is modelled by
returning `none`. -/

/-- One iteration of the inner `for date in data_chunk['date']` loop:
state is the missing-interval accumulator plus `prev_date`. -/
def gap_scan_date (start_date : ℤ) (st : List (ℤ × ℤ) × Option ℤ) (d : ℤ) :
    List (ℤ × ℤ) × Option ℤ :=
  match st with
  | (acc, some prev) =>
      (if prev < d - 1 then acc ++ [(prev + 1, d - 1)] else acc, some d)
  | (acc, none) =>
      (if start_date < d then acc ++ [(start_date, d - 1)] else acc, some d)

/-- The code after the chunk loop: `if prev_date < end_date: append`.
`prev_date = None` there raises a `TypeError` (modelled as `none`). -/
def finalize_gaps (end_date : ℤ) : List (ℤ × ℤ) × Option ℤ → Option (List (ℤ × ℤ))
  | (_, none) => none
  | (acc, some p) => some (if p < end_date then acc ++ [(p + 1, end_date)] else acc)

/-- The chunk loop of `_calculate_missing_date_intervals`, including the early
`return [(start_date, end_date)]` on an empty chunk with an empty accumulator. -/
def calc_missing_aux (start_date end_date : ℤ) :
    List (List ℤ) → List (ℤ × ℤ) → Option ℤ → Option (List (ℤ × ℤ))
  | [], acc, prev => finalize_gaps end_date (acc, prev)
  | c :: cs, acc, prev =>
    if c.isEmpty && acc.isEmpty then some [(start_date, end_date)]
    else
      let st := c.foldl (gap_scan_date start_date) (acc, prev)
      calc_missing_aux start_date end_date cs st.1 st.2

/-- `_calculate_missing_date_intervals(start_date, end_date, dates_with_records_iter)`. -/
def calculate_missing_date_intervals (start_date end_date : ℤ)
    (chunks : List (List ℤ)) : Option (List (ℤ × ℤ)) :=
  calc_missing_aux start_date end_date chunks [] none

/-- A date lies in one of the closed intervals of the list. -/
def inIntervals (ivs : List (ℤ × ℤ)) (d : ℤ) : Prop :=
  ∃ iv ∈ ivs, iv.1 ≤ d ∧ d ≤ iv.2

instance (ivs : List (ℤ × ℤ)) (d : ℤ) : Decidable (inIntervals ivs d) := by
  unfold inIntervals; infer_instance

/-- Day numbers for January 2025 (`jan2025 1 … jan2025 31`), epoch 2024-12-31. -/
def jan2025 (d : ℤ) : ℤ := d

/-- Day numbers for February 2025; January has 31 days. -/
def feb2025 (d : ℤ) : ℤ := 31 + d

example :
    calculate_missing_date_intervals (jan2025 1) (feb2025 1)
      [[jan2025 4, jan2025 5, jan2025 8, jan2025 9]] =
    some [(jan2025 1, jan2025 3), (jan2025 6, jan2025 7), (jan2025 10, feb2025 1)] := by
  decide

example : calculate_missing_date_intervals 0 5 [] = none := by decide

example : calculate_missing_date_intervals 0 5 [[]] = some [(0, 5)] := by decide

theorem inIntervals_append (l₁ l₂ : List (ℤ × ℤ)) (d : ℤ) :
    inIntervals (l₁ ++ l₂) d ↔ inIntervals l₁ d ∨ inIntervals l₂ d := by
  simp [inIntervals, List.mem_append, or_and_right, exists_or]

theorem inIntervals_singleton (a b d : ℤ) :
    inIntervals [(a, b)] d ↔ a ≤ d ∧ d ≤ b := by
  simp [inIntervals]

/-- Invariant of the date-scanning loop: after folding a nonempty, strictly
sorted, in-range list of covered dates from the initial state, `prev_date` is
the last (greatest) covered date and the accumulator holds exactly the gaps
up to it. -/
theorem gap_scan_inv (s e : ℤ) (ds : List ℤ) :
    ds ≠ [] → ds.Sorted (· < ·) → (∀ d ∈ ds, s ≤ d ∧ d ≤ e) →
    ∃ acc p,
      List.foldl (gap_scan_date s) ([], none) ds = (acc, some p) ∧
      p ∈ ds ∧ (∀ d ∈ ds, d ≤ p) ∧
      (∀ iv ∈ acc, s ≤ iv.1 ∧ iv.1 ≤ iv.2 ∧ iv.2 < p) ∧
      acc.Pairwise (fun a b => a.2 < b.1) ∧
      (∀ d : ℤ, inIntervals acc d ↔ s ≤ d ∧ d ≤ p ∧ d ∉ ds) := by
  induction ds using List.reverseRecOn with
  | nil => intro h; exact absurd rfl h
  | append_singleton t r ih =>
    intro _ hsort hrange
    have hsr : s ≤ r := (hrange r (by simp)).1
    rcases eq_or_ne t [] with rfl | htne
    · refine ⟨if s < r then [(s, r - 1)] else [], r, by simp [gap_scan_date], by simp,
        by simp, ?_, ?_, ?_⟩
      · intro iv hiv
        by_cases hlt : s < r
        · simp [hlt] at hiv; subst hiv; simp; omega
        · simp [hlt] at hiv
      · by_cases hlt : s < r <;> simp [hlt]
      · intro d
        by_cases hlt : s < r
        · simp only [if_pos hlt, inIntervals_singleton]
          simp; omega
        · simp only [if_neg hlt]
          simp [inIntervals]; omega
    · have hsp := List.pairwise_append.mp hsort
      have hlt : ∀ a ∈ t, a < r := fun a ha => hsp.2.2 a ha r (by simp)
      obtain ⟨acc, p, hfold, hpmem, hple, hbnd, hpw, hcov⟩ :=
        ih htne hsp.1 (fun d hd => hrange d (List.mem_append_left _ hd))
      have hpr : p < r := hlt p hpmem
      have hsple : s ≤ p := (hrange p (List.mem_append_left _ hpmem)).1
      rw [List.foldl_append, hfold]
      by_cases hgap : p < r - 1
      · refine ⟨acc ++ [(p + 1, r - 1)], r, by simp [gap_scan_date, hgap], by simp,
          ?_, ?_, ?_, ?_⟩
        · intro d hd
          rcases List.mem_append.mp hd with h | h
          · exact le_of_lt (hlt d h)
          · simp at h; omega
        · intro iv hiv
          rcases List.mem_append.mp hiv with h | h
          · exact ⟨(hbnd iv h).1, (hbnd iv h).2.1, lt_trans (hbnd iv h).2.2 hpr⟩
          · simp at h; subst h; simp; omega
        · rw [List.pairwise_append]
          refine ⟨hpw, by simp, ?_⟩
          intro a ha b hb
          simp at hb; subst hb
          have := (hbnd a ha).2.2; simp; omega
        · intro d
          rw [inIntervals_append, inIntervals_singleton, hcov]
          have hdt : d ∈ t → d ≤ p := fun h => hple d h
          simp only [List.mem_append, List.mem_singleton]
          constructor
          · rintro (⟨h1, h2, h3⟩ | ⟨h1, h2⟩)
            · exact ⟨h1, by omega, by rintro (h | h); exact h3 h; omega⟩
            · refine ⟨by omega, by omega, ?_⟩
              rintro (h | h)
              · exact absurd (hdt h) (by omega)
              · omega
          · rintro ⟨h1, h2, h3⟩
            rw [not_or] at h3
            by_cases hdp : d ≤ p
            · exact Or.inl ⟨h1, hdp, h3.1⟩
            · refine Or.inr ⟨by omega, ?_⟩
              have : d ≠ r := h3.2
              omega
      · refine ⟨acc, r, by simp [gap_scan_date, hgap], by simp, ?_, ?_, hpw, ?_⟩
        · intro d hd
          rcases List.mem_append.mp hd with h | h
          · exact le_of_lt (hlt d h)
          · simp at h; omega
        · intro iv hiv
          exact ⟨(hbnd iv hiv).1, (hbnd iv hiv).2.1, lt_trans (hbnd iv hiv).2.2 hpr⟩
        · intro d
          rw [hcov]
          have hdt : d ∈ t → d ≤ p := fun h => hple d h
          simp only [List.mem_append, List.mem_singleton]
          constructor
          · rintro ⟨h1, h2, h3⟩
            exact ⟨h1, by omega, by rintro (h | h); exact h3 h; omega⟩
          · rintro ⟨h1, h2, h3⟩
            rw [not_or] at h3
            refine ⟨h1, ?_, h3.1⟩
            have : d ≠ r := h3.2
            omega

/-- When every chunk of the stream is nonempty, the chunked scan is the scan
of the flattened stream followed by the final-gap step. -/
theorem calc_missing_aux_flatten (s e : ℤ) :
    ∀ (chunks : List (List ℤ)) (acc : List (ℤ × ℤ)) (prev : Option ℤ),
      (∀ c ∈ chunks, c ≠ []) →
      calc_missing_aux s e chunks acc prev =
        finalize_gaps e (List.foldl (gap_scan_date s) (acc, prev) chunks.flatten) := by
  intro chunks
  induction chunks with
  | nil => intro acc prev _; simp [calc_missing_aux]
  | cons c cs ih =>
    intro acc prev hne
    have hc : c ≠ [] := hne c (by simp)
    obtain ⟨x, xs, rfl⟩ : ∃ x xs, c = x :: xs := by
      cases c with
      | nil => exact absurd rfl hc
      | cons x xs => exact ⟨x, xs, rfl⟩
    rw [calc_missing_aux]
    simp only [List.isEmpty_cons, Bool.false_and, if_neg Bool.false_ne_true]
    rw [ih _ _ (fun d hd => hne d (List.mem_cons_of_mem _ hd))]
    rw [List.flatten_cons, List.foldl_append]

/-- The gap calculator's contract, for coverage delivered as one or more
nonempty chunks of sorted, deduplicated, in-range dates. -/
theorem calc_missing_spec :
    ∀ (s e : ℤ) (chunks : List (List ℤ)),
      s ≤ e → chunks ≠ [] → (∀ c ∈ chunks, c ≠ []) →
      chunks.flatten.Sorted (· < ·) →
      (∀ d ∈ chunks.flatten, s ≤ d ∧ d ≤ e) →
      ∃ gaps, calculate_missing_date_intervals s e chunks = some gaps ∧
        (∀ iv ∈ gaps, iv.1 ≤ iv.2) ∧
        gaps.Pairwise (fun a b => a.2 < b.1) ∧
        (∀ iv ∈ gaps, ∀ d ∈ chunks.flatten, ¬(iv.1 ≤ d ∧ d ≤ iv.2)) ∧
        (∀ d : ℤ, s ≤ d ∧ d ≤ e ↔ (d ∈ chunks.flatten ∨ inIntervals gaps d)) := by
  · intro s e chunks _ hchne hcne hsort hrange
    have hflat : chunks.flatten ≠ [] := by
      cases chunks with
      | nil => exact absurd rfl hchne
      | cons c cs =>
        have hc := hcne c (by simp)
        cases c with
        | nil => exact absurd rfl hc
        | cons x xs => simp
    obtain ⟨acc, p, hfold, hpmem, hple, hbnd, hpw, hcov⟩ :=
      gap_scan_inv s e chunks.flatten hflat hsort hrange
    have hcalc : calculate_missing_date_intervals s e chunks =
        finalize_gaps e (acc, some p) := by
      rw [calculate_missing_date_intervals,
        calc_missing_aux_flatten s e chunks [] none hcne, hfold]
    have hpe : p ≤ e := (hrange p hpmem).2
    have hsple : s ≤ p := (hrange p hpmem).1
    by_cases hlast : p < e
    · refine ⟨acc ++ [(p + 1, e)], ?_, ?_, ?_, ?_, ?_⟩
      · rw [hcalc]; simp [finalize_gaps, hlast]
      · intro iv hiv
        rcases List.mem_append.mp hiv with h | h
        · exact (hbnd iv h).2.1
        · simp at h; subst h; simp; omega
      · rw [List.pairwise_append]
        refine ⟨hpw, by simp, ?_⟩
        intro a ha b hb
        simp at hb; subst hb
        have := (hbnd a ha).2.2; simp; omega
      · intro iv hiv d hd hin
        rcases List.mem_append.mp hiv with h | h
        · have : inIntervals acc d := ⟨iv, h, hin.1, hin.2⟩
          exact ((hcov d).mp this).2.2 hd
        · simp at h; subst h
          have := hple d hd
          simp at hin; omega
      · intro d
        constructor
        · rintro ⟨h1, h2⟩
          by_cases hmem : d ∈ chunks.flatten
          · exact Or.inl hmem
          · refine Or.inr ?_
            by_cases hdp : d ≤ p
            · rw [inIntervals_append]
              exact Or.inl ((hcov d).mpr ⟨h1, hdp, hmem⟩)
            · rw [inIntervals_append, inIntervals_singleton]
              exact Or.inr ⟨by omega, h2⟩
        · rintro (h | h)
          · exact hrange d h
          · rw [inIntervals_append, inIntervals_singleton] at h
            rcases h with h | h
            · have := (hcov d).mp h; omega
            · omega
    · have hpe' : p = e := by omega
      subst hpe'
      refine ⟨acc, ?_, ?_, hpw, ?_, ?_⟩
      · rw [hcalc]; simp [finalize_gaps, hlast]
      · exact fun iv hiv => (hbnd iv hiv).2.1
      · intro iv hiv d hd hin
        have : inIntervals acc d := ⟨iv, hiv, hin.1, hin.2⟩
        exact ((hcov d).mp this).2.2 hd
      · intro d
        constructor
        · rintro ⟨h1, h2⟩
          by_cases hmem : d ∈ chunks.flatten
          · exact Or.inl hmem
          · exact Or.inr ((hcov d).mpr ⟨h1, h2, hmem⟩)
        · rintro (h | h)
          · exact hrange d h
          · have := (hcov d).mp h
            exact ⟨this.1, this.2.1⟩

/-- C1: for every requested interval `[start_date, end_date]` with
`start_date ≤ end_date` and every coverage stream of sorted, deduplicated
dates lying within the interval, delivered as one or more (nonempty) chunks,
`_calculate_missing_date_intervals` returns ascending pairwise-disjoint
intervals that contain no covered date and whose union with the covered dates
is exactly the requested interval; in particular the spec's example coverage
`{2025-01-04, 2025-01-05, 2025-01-08, 2025-01-09}` inside
`2025-01-01..2025-02-01` yields exactly
`[(01-01, 01-03), (01-06, 01-07), (01-10, 02-01)]`. -/
theorem c1_missing_intervals_reconstruct :
    (∀ (s e : ℤ) (chunks : List (List ℤ)),
      s ≤ e → chunks ≠ [] → (∀ c ∈ chunks, c ≠ []) →
      chunks.flatten.Sorted (· < ·) →
      (∀ d ∈ chunks.flatten, s ≤ d ∧ d ≤ e) →
      ∃ gaps, calculate_missing_date_intervals s e chunks = some gaps ∧
        (∀ iv ∈ gaps, iv.1 ≤ iv.2) ∧
        gaps.Pairwise (fun a b => a.2 < b.1) ∧
        (∀ iv ∈ gaps, ∀ d ∈ chunks.flatten, ¬(iv.1 ≤ d ∧ d ≤ iv.2)) ∧
        (∀ d : ℤ, s ≤ d ∧ d ≤ e ↔ (d ∈ chunks.flatten ∨ inIntervals gaps d))) ∧
    calculate_missing_date_intervals (jan2025 1) (feb2025 1)
      [[jan2025 4, jan2025 5, jan2025 8, jan2025 9]] =
    some [(jan2025 1, jan2025 3), (jan2025 6, jan2025 7), (jan2025 10, feb2025 1)] :=
  ⟨calc_missing_spec, by decide⟩

/-- Witness for C1: request `[0, 2]`, coverage `{1}` in one chunk. -/
theorem c1_missing_intervals_reconstruct_witness :
    ∃ gaps, calculate_missing_date_intervals 0 2 [[1]] = some gaps ∧
      (∀ iv ∈ gaps, iv.1 ≤ iv.2) ∧
      gaps.Pairwise (fun a b => a.2 < b.1) ∧
      (∀ iv ∈ gaps, ∀ d ∈ [[(1 : ℤ)]].flatten, ¬(iv.1 ≤ d ∧ d ≤ iv.2)) ∧
      (∀ d : ℤ, 0 ≤ d ∧ d ≤ 2 ↔ (d ∈ [[(1 : ℤ)]].flatten ∨ inIntervals gaps d)) :=
  c1_missing_intervals_reconstruct.1 0 2 [[1]] (by decide) (by decide) (by decide)
    (by decide) (by decide)

/-- C9 counterexample: a coverage stream delivered with no chunks at all makes
`_calculate_missing_date_intervals` raise a `TypeError` (`None < end_date`),
modelled by `none`; the single missing interval is not returned. -/
theorem c9_no_chunk_stream_cex :
    calculate_missing_date_intervals 0 5 [] = none ∧
    calculate_missing_date_intervals 0 5 [] ≠ some [(0, 5)] := by
  decide

/-- C9 (amended): if the empty coverage stream is delivered with its first
chunk empty — in particular as a single empty chunk — the function returns the
single missing interval `[(start_date, end_date)]`; but a stream yielding no
chunk at all raises a `TypeError` instead of returning. -/
theorem c9_empty_stream_amended :
    (∀ (s e : ℤ) (cs : List (List ℤ)),
      calculate_missing_date_intervals s e ([] :: cs) = some [(s, e)]) ∧
    (∀ s e : ℤ, calculate_missing_date_intervals s e [] = none) := by
  constructor
  · intro s e cs
    rw [calculate_missing_date_intervals, calc_missing_aux]
    simp
  · intro s e; rfl

/-! ## Range chunker

The request-splitting loop of `split_into_chunks_and_send_requests` from
`app/services/api_communication_service.py`, for a single
`(start_date, end_date)` interval.  The function keeps a chunk when
`end_date - start_date ≤ timedelta(days=93)`; otherwise it issues
`ceil((end_date - start_date) / timedelta(days=93))` requests with
`chunk_start = start + 93*i` and
`chunk_end = min(start + 93*(i+1) - 1, end)`.  The returned list holds the
`(chunk_start, chunk_end)` pairs in request order. -/

/-- The chunks requested for one interval; `93` is the source's `max_len`. -/
def split_into_chunks (s e : ℤ) : List (ℤ × ℤ) :=
  if e - s ≤ 93 then [(s, e)]
  else
    let date_chunks_num := ((e - s).toNat + 92) / 93
    (List.range date_chunks_num).map fun i =>
      (s + 93 * (i : ℤ),
        if s + 93 * ((i : ℤ) + 1) - 1 < e then s + 93 * ((i : ℤ) + 1) - 1 else e)

example : split_into_chunks 0 186 = [(0, 92), (93, 185)] := by decide

example : split_into_chunks 0 100 = [(0, 92), (93, 100)] := by decide

example : split_into_chunks 0 93 = [(0, 93)] := by decide

/-- C2 failing input: for the interval `[0, 186]`, whose span `186` days is a
positive multiple of the maximum span `93`, the issued chunks are
`[(0, 92), (93, 185)]`: the final date `186` (= `end_date`) lies in no chunk,
so concatenating the chunks does not reproduce the interval. -/
theorem c2_chunker_drops_final_day :
    split_into_chunks 0 186 = [(0, 92), (93, 185)] ∧
    (∀ iv ∈ split_into_chunks 0 186, ¬(iv.1 ≤ 186 ∧ (186 : ℤ) ≤ iv.2)) ∧
    (0 : ℤ) ≤ 186 ∧ (186 : ℤ) ≤ 186 := by
  decide

/-! ## Streaming analytics engine

`_find_largest_increase_and_decrease` and
`_get_largest_exchange_rate_increase_and_decrease` from
`app/services/report_generator_service.py`.  Rates are rationals; the float
sentinels `inf`/`-inf` of the per-series scan are modelled by `Option` (with
`none` absorbing under `min`/`max` exactly as the infinities do). -/

/-- State of the single pass of `_find_largest_increase_and_decrease`. -/
structure FladState where
  inc_min : Option ℚ    -- `none` models the initial `float('inf')`
  dec_max : Option ℚ    -- `none` models the initial `float('-inf')`
  max_increase : ℚ
  max_decrease : ℚ
deriving DecidableEq

/-- One iteration of the `for rate in pd_series` loop: the running minimum and
maximum are updated before the candidate differences are taken. -/
def flad_step (st : FladState) (rate : ℚ) : FladState :=
  let inc_min := match st.inc_min with | none => rate | some m => min m rate
  let max_increase := max st.max_increase (rate - inc_min)
  let dec_max := match st.dec_max with | none => rate | some m => max m rate
  let max_decrease := max st.max_decrease (dec_max - rate)
  ⟨some inc_min, some dec_max, max_increase, max_decrease⟩

/-- `_find_largest_increase_and_decrease(pd_series)`. -/
def find_largest_increase_and_decrease (rates : List ℚ) : ℚ × ℚ :=
  let st := rates.foldl flad_step ⟨none, none, 0, 0⟩
  (st.max_increase, st.max_decrease)

example : find_largest_increase_and_decrease [-1, -2, 1, -3, 2] = (5, 4) := by
  norm_num [find_largest_increase_and_decrease, flad_step, min_def, max_def]

/-- All differences `rates[j] - rates[i]` over index pairs `i ≤ j` (the
diagonal pairs `i = j` contribute `0`).  Stated from the claim's wording, as
the reference against which the source scan is compared. -/
def pair_gaps : List ℚ → List ℚ
  | [] => []
  | x :: xs => (x :: xs).map (fun y => y - x) ++ pair_gaps xs

/-- The largest of `0` and all rises `rates[j] - rates[i]`, `i ≤ j`. -/
def best_rise (rates : List ℚ) : ℚ := (pair_gaps rates).foldl max 0

/-- The largest of `0` and all falls `rates[i] - rates[j]`, `i ≤ j`. -/
def best_fall (rates : List ℚ) : ℚ :=
  ((pair_gaps rates).map (fun g => -g)).foldl max 0

theorem foldl_max_le_iff (l : List ℚ) :
    ∀ a c : ℚ, l.foldl max a ≤ c ↔ a ≤ c ∧ ∀ x ∈ l, x ≤ c := by
  induction l with
  | nil => intro a c; simp
  | cons y ys ih =>
    intro a c
    rw [List.foldl_cons, ih]
    simp [max_le_iff]
    tauto

theorem le_foldl_max (l : List ℚ) (a : ℚ) : a ≤ l.foldl max a :=
  ((foldl_max_le_iff l a _).mp le_rfl).1

theorem mem_le_foldl_max (l : List ℚ) (a : ℚ) {x : ℚ} (h : x ∈ l) :
    x ≤ l.foldl max a :=
  ((foldl_max_le_iff l a _).mp le_rfl).2 x h

/-- Snoc characterization of the pair differences: appending `r` adds exactly
the rises from each earlier element (and from `r` itself) to `r`. -/
theorem mem_pair_gaps_append (r g : ℚ) :
    ∀ t : List ℚ,
      (g ∈ pair_gaps (t ++ [r]) ↔ g ∈ pair_gaps t ∨ ∃ x ∈ t ++ [r], g = r - x) := by
  intro t
  induction t with
  | nil => simp [pair_gaps, eq_comm]
  | cons x xs ih =>
    simp only [List.cons_append, pair_gaps, List.mem_append, List.mem_map,
      List.mem_cons, List.mem_singleton] at ih ⊢
    aesop

/-- Invariant of the rate scan: after folding a nonempty list, `inc_min` and
`dec_max` hold the minimum and maximum seen, and the two accumulators hold
values that are achieved by (and bound) the pairwise rises and falls. -/
theorem flad_fold_inv (l : List ℚ) :
    l ≠ [] →
    ∃ m M bi bd,
      List.foldl flad_step ⟨none, none, 0, 0⟩ l = ⟨some m, some M, bi, bd⟩ ∧
      m ∈ l ∧ (∀ x ∈ l, m ≤ x) ∧
      M ∈ l ∧ (∀ x ∈ l, x ≤ M) ∧
      0 ≤ bi ∧ (bi = 0 ∨ bi ∈ pair_gaps l) ∧ (∀ g ∈ pair_gaps l, g ≤ bi) ∧
      0 ≤ bd ∧ (bd = 0 ∨ -bd ∈ pair_gaps l) ∧ (∀ g ∈ pair_gaps l, -bd ≤ g) := by
  induction l using List.reverseRecOn with
  | nil => intro h; exact absurd rfl h
  | append_singleton t r ih =>
    intro _
    rcases eq_or_ne t [] with rfl | htne
    · refine ⟨r, r, 0, 0, ?_, by simp, by simp, by simp, by simp, le_rfl, Or.inl rfl,
        ?_, le_rfl, Or.inl rfl, ?_⟩
      · simp [flad_step]
      · intro g hg; simp [pair_gaps] at hg; simp [hg]
      · intro g hg; simp [pair_gaps] at hg; simp [hg]
    · obtain ⟨m, M, bi, bd, heq, hmm, hmin, hMm, hmax, hbi0, hbia, hbib, hbd0, hbda, hbdb⟩ :=
        ih htne
      refine ⟨min m r, max M r, max bi (r - min m r), max bd (max M r - r),
        ?_, ?_, ?_, ?_, ?_, ?_, ?_, ?_, ?_, ?_, ?_⟩
      · rw [List.foldl_append, heq]; simp [flad_step]
      · rcases min_choice m r with h | h <;> rw [h]
        · exact List.mem_append_left _ hmm
        · simp
      · intro x hx
        rcases List.mem_append.mp hx with h | h
        · exact le_trans (min_le_left m r) (hmin x h)
        · simp at h; rw [h]; exact min_le_right m r
      · rcases max_choice M r with h | h <;> rw [h]
        · exact List.mem_append_left _ hMm
        · simp
      · intro x hx
        rcases List.mem_append.mp hx with h | h
        · exact le_trans (hmax x h) (le_max_left M r)
        · simp at h; rw [h]; exact le_max_right M r
      · exact le_trans hbi0 (le_max_left _ _)
      · by_cases hc : r - min m r ≤ bi
        · rw [max_eq_left hc]
          rcases hbia with h | h
          · exact Or.inl h
          · exact Or.inr ((mem_pair_gaps_append r bi t).mpr (Or.inl h))
        · rw [max_eq_right (le_of_not_le hc)]
          refine Or.inr ((mem_pair_gaps_append r _ t).mpr (Or.inr ⟨min m r, ?_, rfl⟩))
          rcases min_choice m r with h | h <;> rw [h]
          · exact List.mem_append_left _ hmm
          · simp
      · intro g hg
        rcases (mem_pair_gaps_append r g t).mp hg with h | ⟨x, hx, rfl⟩
        · exact le_trans (hbib g h) (le_max_left _ _)
        · have hxm : min m r ≤ x := by
            rcases List.mem_append.mp hx with h | h
            · exact le_trans (min_le_left m r) (hmin x h)
            · simp at h; rw [h]; exact min_le_right m r
          calc r - x ≤ r - min m r := by linarith
          _ ≤ max bi (r - min m r) := le_max_right _ _
      · exact le_trans hbd0 (le_max_left _ _)
      · by_cases hc : max M r - r ≤ bd
        · rw [max_eq_left hc]
          rcases hbda with h | h
          · exact Or.inl h
          · exact Or.inr ((mem_pair_gaps_append r _ t).mpr (Or.inl h))
        · rw [max_eq_right (le_of_not_le hc)]
          have : -(max M r - r) = r - max M r := by ring
          rw [this]
          refine Or.inr ((mem_pair_gaps_append r _ t).mpr (Or.inr ⟨max M r, ?_, rfl⟩))
          rcases max_choice M r with h | h <;> rw [h]
          · exact List.mem_append_left _ hMm
          · simp
      · intro g hg
        rcases (mem_pair_gaps_append r g t).mp hg with h | ⟨x, hx, rfl⟩
        · calc -(max bd (max M r - r)) ≤ -bd := neg_le_neg (le_max_left _ _)
          _ ≤ g := hbdb g h
        · have hxM : x ≤ max M r := by
            rcases List.mem_append.mp hx with h | h
            · exact le_trans (hmax x h) (le_max_left M r)
            · simp at h; rw [h]; exact le_max_right M r
          have h1 : -(max bd (max M r - r)) ≤ -(max M r - r) :=
            neg_le_neg (le_max_right _ _)
          calc -(max bd (max M r - r)) ≤ -(max M r - r) := h1
          _ ≤ r - x := by linarith

/-- The source scan computes exactly the pairwise extrema. -/
theorem find_largest_eq_spec (rates : List ℚ) :
    find_largest_increase_and_decrease rates = (best_rise rates, best_fall rates) := by
  rcases eq_or_ne rates [] with rfl | hne
  · rfl
  · obtain ⟨m, M, bi, bd, heq, _, _, _, _, hbi0, hbia, hbib, hbd0, hbda, hbdb⟩ :=
      flad_fold_inv rates hne
    rw [find_largest_increase_and_decrease, heq]
    dsimp only
    have h1 : bi = best_rise rates := by
      apply le_antisymm
      · rcases hbia with h | h
        · rw [h]; exact le_foldl_max _ 0
        · exact mem_le_foldl_max _ 0 h
      · exact (foldl_max_le_iff _ 0 bi).mpr ⟨hbi0, hbib⟩
    have h2 : bd = best_fall rates := by
      apply le_antisymm
      · rcases hbda with h | h
        · rw [h]; exact le_foldl_max _ 0
        · refine mem_le_foldl_max _ 0 ?_
          exact List.mem_map.mpr ⟨-bd, h, neg_neg bd⟩
      · refine (foldl_max_le_iff _ 0 bd).mpr ⟨hbd0, ?_⟩
        intro x hx
        rcases List.mem_map.mp hx with ⟨g, hg, rfl⟩
        have := hbdb g hg
        linarith
    rw [h1, h2]

/-- C4: for every finite rate sequence, `_find_largest_increase_and_decrease`
returns the largest of `0` and all rises `rate_j - rate_i` (`i ≤ j`), and the
largest of `0` and all falls `rate_i - rate_j` (`i ≤ j`); in particular the
spec's scenarios `[-1, -2, 1, -3, 2] ↦ (5, 4)`, `[1, 1, 1, 1] ↦ (0, 0)`, and
any single-element sequence `↦ (0, 0)`. -/
theorem c4_find_largest_matches_pairwise_spec :
    (∀ rates : List ℚ,
      find_largest_increase_and_decrease rates = (best_rise rates, best_fall rates)) ∧
    find_largest_increase_and_decrease [-1, -2, 1, -3, 2] = (5, 4) ∧
    find_largest_increase_and_decrease [1, 1, 1, 1] = (0, 0) ∧
    (∀ x : ℚ, find_largest_increase_and_decrease [x] = (0, 0)) := by
  refine ⟨find_largest_eq_spec, ?_, ?_, ?_⟩
  · norm_num [find_largest_increase_and_decrease, flad_step, min_def, max_def]
  · norm_num [find_largest_increase_and_decrease, flad_step, min_def, max_def]
  · intro x
    simp [find_largest_increase_and_decrease, flad_step]

/-! ## Chunked, currency-grouped analytics

`_get_largest_exchange_rate_increase_and_decrease(df_iter)`.  A chunk is the
row list of one DataFrame, each row a `(currency_code, currency_rate)` pair
(the `date` column is not consulted by the function).  `groupby` yields the
distinct codes in ascending order, each group keeping its row order;
`grouped_chunks.last().iloc[-1]` picks the greatest code of the chunk and
raises an `IndexError` on an empty chunk (modelled by `none`). -/

/-- A row of the data frame: `(currency_code, currency_rate)`. -/
abbrev RateRow : Type := ℕ × ℚ

/-- Insert a code into a sorted duplicate-free code list. -/
def sorted_insert (c : ℕ) : List ℕ → List ℕ
  | [] => [c]
  | k :: ks =>
    if c < k then c :: k :: ks
    else if c = k then k :: ks
    else k :: sorted_insert c ks

/-- The group keys of `df_chunk.groupby(...)`: distinct codes, ascending. -/
def group_keys (chunk : List RateRow) : List ℕ :=
  (chunk.map Prod.fst).foldr sorted_insert []

/-- The `currency_rate` column of the group of code `c`, in row order. -/
def group_rows (chunk : List RateRow) (c : ℕ) : List ℚ :=
  (chunk.filter (fun row => row.1 == c)).map Prod.snd

/-- The running-best record `curr_map(curr_code, value)`;
`value = none` models the initial `float('-inf')`. -/
structure CurrMap where
  curr_code : Option ℕ
  value : Option ℚ
deriving DecidableEq

/-- `v > value`, where `value` may still be the initial `-inf`. -/
def exceeds (v : ℚ) : Option ℚ → Bool
  | none => true
  | some w => decide (w < v)

/-- `if v > acc.value: acc = curr_map(c, v)`. -/
def bump (acc : CurrMap) (c : ℕ) (v : ℚ) : CurrMap :=
  if exceeds v acc.value then ⟨some c, some v⟩ else acc

/-- Body of the `for currency_code, df in grouped_chunks` loop: the group is
prefixed with the carried rows when its code equals `last_chunk.curr_code`,
then both global extrema are challenged. -/
def process_group (last_code : Option ℕ) (last_rows : List ℚ)
    (chunk : List RateRow) (acc : CurrMap × CurrMap) (c : ℕ) : CurrMap × CurrMap :=
  let rates := group_rows chunk c
  let rates := if last_code = some c then last_rows ++ rates else rates
  let md := find_largest_increase_and_decrease rates
  (bump acc.1 c md.1, bump acc.2 c md.2)

/-- Streaming state of the chunk loop: the two global extrema plus
`last_chunk = curr_map(code of the greatest group, its rows)`. -/
structure AnalyticsState where
  curr_max_inc : CurrMap
  curr_max_dec : CurrMap
  last_code : Option ℕ
  last_rows : List ℚ
deriving DecidableEq

/-- One `for df_chunk in df_iter` iteration; `none` is the `IndexError` of
`grouped_chunks.last().iloc[-1]` on an empty chunk.  The new carry holds only
this chunk's rows of the greatest code (`get_group`), not the concatenation
used when computing extrema. -/
def process_chunk (st : AnalyticsState) (chunk : List RateRow) :
    Option AnalyticsState :=
  match (group_keys chunk).getLast? with
  | none => none
  | some mk =>
    let upd := (group_keys chunk).foldl
      (process_group st.last_code st.last_rows chunk)
      (st.curr_max_inc, st.curr_max_dec)
    some ⟨upd.1, upd.2, some mk, group_rows chunk mk⟩

def run_chunks : AnalyticsState → List (List RateRow) → Option AnalyticsState
  | st, [] => some st
  | st, c :: cs =>
    match process_chunk st c with
    | none => none
    | some st' => run_chunks st' cs

/-- `_get_largest_exchange_rate_increase_and_decrease(df_iter)`: the returned
dictionary's `max_recorded_increase` and `max_recorded_decrease` entries. -/
def get_largest_exchange_rate_increase_and_decrease
    (chunks : List (List RateRow)) : Option (CurrMap × CurrMap) :=
  (run_chunks ⟨⟨none, none⟩, ⟨none, none⟩, none, []⟩ chunks).map
    (fun st => (st.curr_max_inc, st.curr_max_dec))

/-- C3 failing input: currency `0` with the date-ascending rate series
`[1, 5, 9]`.  Unsplit, the best increase is `8`; split into three chunks at
every boundary, the code reports `4`: the carry after a chunk holds only that
chunk's rows (`get_group`), so the merged series seen while processing the
third chunk is `[5, 9]` and the swing from the first chunk's `1` is lost.
The claim asserts the two computations agree for splits spreading a currency
over three or more chunks; they do not. -/
theorem c3_chunked_extrema_differ_from_unsplit :
    get_largest_exchange_rate_increase_and_decrease [[(0, 1), (0, 5), (0, 9)]] =
      some (⟨some 0, some 8⟩, ⟨some 0, some 0⟩) ∧
    get_largest_exchange_rate_increase_and_decrease [[(0, 1)], [(0, 5)], [(0, 9)]] =
      some (⟨some 0, some 4⟩, ⟨some 0, some 0⟩) ∧
    (⟨some 0, some (4 : ℚ)⟩ : CurrMap) ≠ ⟨some 0, some 8⟩ := by
  refine ⟨?_, ?_, by simp⟩ <;>
  norm_num [get_largest_exchange_rate_increase_and_decrease, run_chunks, process_chunk,
    process_group, group_keys, group_rows, sorted_insert, bump, exceeds,
    find_largest_increase_and_decrease, flad_step, min_def, max_def]

theorem sorted_insert_ne_nil (c : ℕ) (l : List ℕ) : sorted_insert c l ≠ [] := by
  cases l with
  | nil => simp [sorted_insert]
  | cons k ks =>
    simp only [sorted_insert]
    split
    · simp
    · split <;> simp

theorem group_keys_ne_nil {chunk : List RateRow} (h : chunk ≠ []) :
    group_keys chunk ≠ [] := by
  cases chunk with
  | nil => exact absurd rfl h
  | cons x xs =>
    simp only [group_keys, List.map_cons, List.foldr_cons]
    exact sorted_insert_ne_nil _ _

theorem bump_value_some (acc : CurrMap) (c : ℕ) (v : ℚ) :
    (bump acc c v).value ≠ none := by
  rw [bump]
  split
  · simp
  · rename_i hx
    cases hv : acc.value with
    | none => rw [hv] at hx; simp [exceeds] at hx
    | some w => simp [hv]

/-- The code and value fields of a running-best record are `none` together. -/
def GoodCM (acc : CurrMap) : Prop := acc.curr_code = none ↔ acc.value = none

theorem bump_good {acc : CurrMap} (h : GoodCM acc) (c : ℕ) (v : ℚ) :
    GoodCM (bump acc c v) := by
  rw [bump]
  split
  · simp [GoodCM]
  · exact h

theorem foldl_pg_value (lc : Option ℕ) (lr : List ℚ) (ch : List RateRow) :
    ∀ (keys : List ℕ) (acc : CurrMap × CurrMap),
      (keys.foldl (process_group lc lr ch) acc = acc) ∨
      ((keys.foldl (process_group lc lr ch) acc).1.value ≠ none ∧
       (keys.foldl (process_group lc lr ch) acc).2.value ≠ none) := by
  intro keys
  induction keys with
  | nil => intro acc; exact Or.inl rfl
  | cons k ks ih =>
    intro acc
    rw [List.foldl_cons]
    rcases ih (process_group lc lr ch acc k) with h | h
    · rw [h]
      exact Or.inr ⟨bump_value_some _ _ _, bump_value_some _ _ _⟩
    · exact Or.inr h

theorem foldl_pg_value_ne (lc : Option ℕ) (lr : List ℚ) (ch : List RateRow)
    {keys : List ℕ} (hk : keys ≠ []) (acc : CurrMap × CurrMap) :
    (keys.foldl (process_group lc lr ch) acc).1.value ≠ none ∧
    (keys.foldl (process_group lc lr ch) acc).2.value ≠ none := by
  cases keys with
  | nil => exact absurd rfl hk
  | cons k ks =>
    rw [List.foldl_cons]
    rcases foldl_pg_value lc lr ch ks (process_group lc lr ch acc k) with h | h
    · rw [h]
      exact ⟨bump_value_some _ _ _, bump_value_some _ _ _⟩
    · exact h

theorem foldl_pg_good (lc : Option ℕ) (lr : List ℚ) (ch : List RateRow) :
    ∀ (keys : List ℕ) (acc : CurrMap × CurrMap),
      GoodCM acc.1 → GoodCM acc.2 →
      GoodCM ((keys.foldl (process_group lc lr ch) acc).1) ∧
      GoodCM ((keys.foldl (process_group lc lr ch) acc).2) := by
  intro keys
  induction keys with
  | nil => intro acc h1 h2; exact ⟨h1, h2⟩
  | cons k ks ih =>
    intro acc h1 h2
    rw [List.foldl_cons]
    exact ih _ (bump_good h1 _ _) (bump_good h2 _ _)

theorem process_chunk_values {st st' : AnalyticsState} {chunk : List RateRow}
    (h : process_chunk st chunk = some st') :
    st'.curr_max_inc.value ≠ none ∧ st'.curr_max_dec.value ≠ none := by
  rw [process_chunk] at h
  cases hk : (group_keys chunk).getLast? with
  | none => rw [hk] at h; simp at h
  | some mk =>
    rw [hk] at h
    simp only [Option.some.injEq] at h
    subst h
    have hkeys : group_keys chunk ≠ [] := by
      intro hnil; rw [hnil] at hk; simp at hk
    exact foldl_pg_value_ne st.last_code st.last_rows chunk hkeys _

theorem process_chunk_good {st st' : AnalyticsState} {chunk : List RateRow}
    (h : process_chunk st chunk = some st')
    (h1 : GoodCM st.curr_max_inc) (h2 : GoodCM st.curr_max_dec) :
    GoodCM st'.curr_max_inc ∧ GoodCM st'.curr_max_dec := by
  rw [process_chunk] at h
  cases hk : (group_keys chunk).getLast? with
  | none => rw [hk] at h; simp at h
  | some mk =>
    rw [hk] at h
    simp only [Option.some.injEq] at h
    subst h
    exact foldl_pg_good st.last_code st.last_rows chunk _ _ h1 h2

theorem process_chunk_nonempty {st st' : AnalyticsState} {chunk : List RateRow}
    (h : process_chunk st chunk = some st') : chunk ≠ [] := by
  intro hnil
  subst hnil
  simp [process_chunk, group_keys] at h

theorem run_chunks_cases :
    ∀ (chunks : List (List RateRow)) (st st' : AnalyticsState),
      run_chunks st chunks = some st' →
      (chunks = [] ∧ st' = st) ∨
      (st'.curr_max_inc.value ≠ none ∧ st'.curr_max_dec.value ≠ none) := by
  intro chunks
  induction chunks with
  | nil =>
    intro st st' h
    rw [run_chunks] at h
    simp at h
    exact Or.inl ⟨rfl, h.symm⟩
  | cons c cs ih =>
    intro st st' h
    rw [run_chunks] at h
    cases hp : process_chunk st c with
    | none => rw [hp] at h; simp at h
    | some st₁ =>
      rw [hp] at h
      rcases ih st₁ st' h with ⟨_, rfl⟩ | hv
      · exact Or.inr (process_chunk_values hp)
      · exact Or.inr hv

theorem run_chunks_good :
    ∀ (chunks : List (List RateRow)) (st st' : AnalyticsState),
      run_chunks st chunks = some st' →
      GoodCM st.curr_max_inc → GoodCM st.curr_max_dec →
      GoodCM st'.curr_max_inc ∧ GoodCM st'.curr_max_dec := by
  intro chunks
  induction chunks with
  | nil =>
    intro st st' h h1 h2
    rw [run_chunks] at h
    simp at h
    subst h
    exact ⟨h1, h2⟩
  | cons c cs ih =>
    intro st st' h h1 h2
    rw [run_chunks] at h
    cases hp : process_chunk st c with
    | none => rw [hp] at h; simp at h
    | some st₁ =>
      rw [hp] at h
      obtain ⟨hg1, hg2⟩ := process_chunk_good hp h1 h2
      exact ih st₁ st' h hg1 hg2

theorem run_chunks_all_nonempty :
    ∀ (chunks : List (List RateRow)) (st st' : AnalyticsState),
      run_chunks st chunks = some st' → ∀ c ∈ chunks, c ≠ [] := by
  intro chunks
  induction chunks with
  | nil => intro st st' _ c hc; simp at hc
  | cons c cs ih =>
    intro st st' h d hd
    rw [run_chunks] at h
    cases hp : process_chunk st c with
    | none => rw [hp] at h; simp at h
    | some st₁ =>
      rw [hp] at h
      rcases List.mem_cons.mp hd with rfl | hd'
      · exact process_chunk_nonempty hp
      · exact ih st₁ st' h d hd'

/-- C10: both values returned by `_find_largest_increase_and_decrease` are
non-negative for every finite rate sequence, so every examined currency group
replaces the initial `-inf` global extremum; a returned global extremum has
currency code `None` exactly when the chunk stream contains no record. -/
theorem c10_extrema_nonneg_and_code_none_iff_no_records :
    (∀ rates : List ℚ,
      0 ≤ (find_largest_increase_and_decrease rates).1 ∧
      0 ≤ (find_largest_increase_and_decrease rates).2) ∧
    (∀ (chunks : List (List RateRow)) (res : CurrMap × CurrMap),
      get_largest_exchange_rate_increase_and_decrease chunks = some res →
      ((res.1.curr_code = none ↔ chunks.flatten = []) ∧
       (res.2.curr_code = none ↔ chunks.flatten = []))) := by
  constructor
  · intro rates
    rw [find_largest_eq_spec]
    exact ⟨le_foldl_max _ 0, le_foldl_max _ 0⟩
  · intro chunks res h
    rw [get_largest_exchange_rate_increase_and_decrease] at h
    cases hr : run_chunks ⟨⟨none, none⟩, ⟨none, none⟩, none, []⟩ chunks with
    | none => rw [hr] at h; simp at h
    | some st' =>
      rw [hr] at h
      simp at h
      subst h
      have hgood := run_chunks_good chunks _ st' hr (by simp [GoodCM]) (by simp [GoodCM])
      rcases run_chunks_cases chunks _ st' hr with ⟨rfl, rfl⟩ | hv
      · simp
      · have hne := run_chunks_all_nonempty chunks _ st' hr
        have hflat : chunks.flatten ≠ [] := by
          cases chunks with
          | nil =>
            rw [run_chunks] at hr
            simp at hr
            rw [← hr] at hv
            simp at hv
          | cons c cs =>
            have hc := hne c (by simp)
            cases c with
            | nil => exact absurd rfl hc
            | cons x xs => simp
        constructor
        · constructor
          · intro hc; exact (hv.1 (hgood.1.mp hc)).elim
          · intro hf; exact (hflat hf).elim
        · constructor
          · intro hc; exact (hv.2 (hgood.2.mp hc)).elim
          · intro hf; exact (hflat hf).elim

/-- Witness for C10: a one-record stream yields extrema with a currency code. -/
theorem c10_extrema_nonneg_and_code_none_iff_no_records_witness :
    ((⟨some 0, some 0⟩ : CurrMap).curr_code = none ↔
        ([[((0 : ℕ), (1 : ℚ))]] : List (List RateRow)).flatten = []) ∧
    ((⟨some 0, some 0⟩ : CurrMap).curr_code = none ↔
        ([[((0 : ℕ), (1 : ℚ))]] : List (List RateRow)).flatten = []) :=
  c10_extrema_nonneg_and_code_none_iff_no_records.2 [[(0, 1)]]
    (⟨some 0, some 0⟩, ⟨some 0, some 0⟩)
    (by norm_num [get_largest_exchange_rate_increase_and_decrease, run_chunks,
      process_chunk, process_group, group_keys, group_rows, sorted_insert, bump,
      exceeds, find_largest_increase_and_decrease, flad_step, min_def, max_def])

/-! ## Idempotent store insert

`_DatabaseOp.insert` from `app/services/database_communication_service.py`:
`INSERT ... ON CONFLICT DO NOTHING` against the `(date, currency_code)`
primary key of `exchange_rates`.  The store is the table's row list in
insertion order; rows of the statement are attempted in order and a row whose
key is already present (in the table or earlier in the same statement) is
dropped without error. -/

/-- The natural key `(date, currency_code)`. -/
abbrev RateKey : Type := ℤ × ℕ

/-- A stored row: natural key plus `currency_rate`. -/
abbrev RateRecord : Type := RateKey × ℚ

/-- The primary-key uniqueness check. -/
def key_in_store (k : RateKey) (store : List RateRecord) : Bool :=
  store.any (fun r => r.1 == k)

namespace DatabaseOp

/-- `_DatabaseOp.insert(input_data)` with `on_conflict_do_nothing()`. -/
def insert (store : List RateRecord) (input_data : List RateRecord) :
    List RateRecord :=
  input_data.foldl (fun st r => if key_in_store r.1 st then st else st ++ [r]) store

end DatabaseOp

theorem key_in_store_insert_mono {k : RateKey} (rows : List RateRecord) :
    ∀ store : List RateRecord, key_in_store k store = true →
      key_in_store k (DatabaseOp.insert store rows) = true := by
  induction rows with
  | nil => intro store h; exact h
  | cons x rs ih =>
    intro store h
    show key_in_store k (List.foldl _ _ rs) = true
    by_cases hx : key_in_store x.1 store
    · simpa [DatabaseOp.insert, hx] using ih store h
    · have h' : key_in_store k (store ++ [x]) = true := by
        simp [key_in_store, List.any_append]
        simp [key_in_store] at h
        exact Or.inl h
      simpa [DatabaseOp.insert, hx] using ih (store ++ [x]) h'

theorem insert_keys_present (rows : List RateRecord) :
    ∀ store : List RateRecord, ∀ r ∈ rows,
      key_in_store r.1 (DatabaseOp.insert store rows) = true := by
  induction rows with
  | nil => intro store r hr; simp at hr
  | cons x rs ih =>
    intro store r hr
    rcases List.mem_cons.mp hr with rfl | hr'
    · show key_in_store r.1 (List.foldl _ _ rs) = true
      by_cases hx : key_in_store r.1 store
      · simpa [hx] using key_in_store_insert_mono rs store hx
      · have h' : key_in_store r.1 (store ++ [r]) = true := by
          simp [key_in_store, List.any_append]
        simpa [hx] using key_in_store_insert_mono rs (store ++ [r]) h'
    · show key_in_store r.1 (List.foldl _ _ rs) = true
      by_cases hx : key_in_store x.1 store
      · simpa [hx] using ih store r hr'
      · simpa [hx] using ih (store ++ [x]) r hr'

theorem insert_no_op (rows : List RateRecord) :
    ∀ store : List RateRecord, (∀ r ∈ rows, key_in_store r.1 store = true) →
      DatabaseOp.insert store rows = store := by
  induction rows with
  | nil => intro store _; rfl
  | cons x rs ih =>
    intro store hall
    have hx := hall x (by simp)
    show List.foldl _ _ (x :: rs) = store
    rw [List.foldl_cons]
    simp only [hx, if_true]
    exact ih store (fun r hr => hall r (by simp [hr]))

/-- C5: merging a list of normalized records into the store twice leaves the
store exactly as merging it once; a record whose `(date, currency_code)` key
already exists is silently ignored, changing nothing and raising no error. -/
theorem c5_insert_idempotent :
    (∀ store rows : List RateRecord,
      DatabaseOp.insert (DatabaseOp.insert store rows) rows =
        DatabaseOp.insert store rows) ∧
    (∀ (store : List RateRecord) (r : RateRecord),
      key_in_store r.1 store = true → DatabaseOp.insert store [r] = store) := by
  constructor
  · intro store rows
    exact insert_no_op rows _ (insert_keys_present rows store)
  · intro store r h
    show List.foldl _ _ [r] = store
    simp [h]

/-- Witness for C5: inserting a record whose key is already stored. -/
theorem c5_insert_idempotent_witness :
    key_in_store ((0 : ℤ), (0 : ℕ)) [(((0 : ℤ), (0 : ℕ)), (1 : ℚ))] = true ∧
    DatabaseOp.insert [(((0 : ℤ), (0 : ℕ)), (1 : ℚ))] [(((0 : ℤ), (0 : ℕ)), (2 : ℚ))] =
      [(((0 : ℤ), (0 : ℕ)), (1 : ℚ))] :=
  ⟨by decide, c5_insert_idempotent.2 _ (((0 : ℤ), (0 : ℕ)), (2 : ℚ)) (by decide)⟩

/-! ## gather_data_for_date_range

`gather_data_for_date_range` from `app/services/data_collection_service.py`.
`_collect_missing_data_from_nbp_api` is abstracted by the oracle
`fetch_has_data`, which tells whether the response iterator for the given
missing ranges yields at least one response (its `is_data_collected` result);
its side effect of saving responses does not influence the control flow. -/

inductive GatherOutcome
  | ok        -- the function returns normally
  | fatal     -- raise SystemExit(...): data unavailable for the whole range
  | typeErr   -- TypeError escaping _calculate_missing_date_intervals
deriving DecidableEq

def gather_data_for_date_range (s e : ℤ) (chunks : List (List ℤ))
    (fetch_has_data : List (ℤ × ℤ) → Bool) : GatherOutcome :=
  match calculate_missing_date_intervals s e chunks with
  | none => .typeErr
  | some missing =>
    if missing ≠ [] then
      let is_data_collected := fetch_has_data missing
      if is_data_collected = false ∧ missing = [(s, e)] then .fatal
      else .ok
    else .ok

/-- The source aborts exactly when the computed missing ranges are the whole
requested interval and the fetch yielded nothing. -/
theorem gather_fatal_iff (s e : ℤ) (chunks : List (List ℤ))
    (fetch_has_data : List (ℤ × ℤ) → Bool) :
    gather_data_for_date_range s e chunks fetch_has_data = .fatal ↔
      (calculate_missing_date_intervals s e chunks = some [(s, e)] ∧
        fetch_has_data [(s, e)] = false) := by
  rw [gather_data_for_date_range]
  cases hm : calculate_missing_date_intervals s e chunks with
  | none => simp
  | some missing =>
    simp only [Option.some.injEq]
    by_cases hms : missing = [(s, e)]
    · subst hms
      simp only [ne_eq, reduceCtorEq, not_false_iff, if_true]
      cases hf : fetch_has_data [(s, e)] <;> simp [hf]
    · have h1 : (if missing ≠ [] then
          (if fetch_has_data missing = false ∧ missing = [(s, e)] then GatherOutcome.fatal
            else GatherOutcome.ok)
          else GatherOutcome.ok) = GatherOutcome.ok := by
        by_cases hne : missing = []
        · simp [hne]
        · simp [hne, hms]
      rw [h1]
      simp [hms]

/-- C6: `gather_data_for_date_range` aborts with the user-facing fatal error
exactly when the computed missing ranges equal the single interval covering
the whole requested range and the fetch yields zero responses; whenever some
covered data exists in the cache, or the fetch for the missing ranges yields
any response, the function does not abort. -/
theorem c6_abort_iff_total_failure :
    (∀ (s e : ℤ) (chunks : List (List ℤ)) (fetch_has_data : List (ℤ × ℤ) → Bool),
      gather_data_for_date_range s e chunks fetch_has_data = .fatal ↔
        (calculate_missing_date_intervals s e chunks = some [(s, e)] ∧
          fetch_has_data [(s, e)] = false)) ∧
    (∀ (s e : ℤ) (chunks : List (List ℤ)) (fetch_has_data : List (ℤ × ℤ) → Bool),
      s ≤ e → chunks ≠ [] → (∀ c ∈ chunks, c ≠ []) →
      chunks.flatten.Sorted (· < ·) →
      (∀ d ∈ chunks.flatten, s ≤ d ∧ d ≤ e) →
      gather_data_for_date_range s e chunks fetch_has_data ≠ .fatal) ∧
    (∀ (s e : ℤ) (chunks : List (List ℤ)) (fetch_has_data : List (ℤ × ℤ) → Bool)
        (missing : List (ℤ × ℤ)),
      calculate_missing_date_intervals s e chunks = some missing →
      fetch_has_data missing = true →
      gather_data_for_date_range s e chunks fetch_has_data ≠ .fatal) := by
  refine ⟨gather_fatal_iff, ?_, ?_⟩
  · intro s e chunks fetch_has_data hse hchne hcne hsort hrange hfatal
    obtain ⟨gaps, hg, _, _, hnocov, _⟩ :=
      calc_missing_spec s e chunks hse hchne hcne hsort hrange
    obtain ⟨hm, _⟩ := (gather_fatal_iff s e chunks fetch_has_data).mp hfatal
    rw [hg] at hm
    obtain rfl : gaps = [(s, e)] := by injection hm
    have hflat : chunks.flatten ≠ [] := by
      cases chunks with
      | nil => exact absurd rfl hchne
      | cons c cs =>
        have hc := hcne c (by simp)
        cases c with
        | nil => exact absurd rfl hc
        | cons x xs => simp
    obtain ⟨d, hd⟩ := List.exists_mem_of_ne_nil _ hflat
    exact hnocov (s, e) (by simp) d hd ⟨(hrange d hd).1, (hrange d hd).2⟩
  · intro s e chunks fetch_has_data missing hm hf hfatal
    obtain ⟨hm', hf'⟩ := (gather_fatal_iff s e chunks fetch_has_data).mp hfatal
    rw [hm] at hm'
    obtain rfl : missing = [(s, e)] := by injection hm'
    rw [hf] at hf'
    simp at hf'

/-- Witness for C6: one covered day inside `[0, 1]`, a fetch that answers. -/
theorem c6_abort_iff_total_failure_witness :
    gather_data_for_date_range 0 1 [[0]] (fun _ => true) ≠ .fatal :=
  c6_abort_iff_total_failure.2.2 0 1 [[0]] (fun _ => true) [(1, 1)]
    (by decide) rfl

/-! ## Per-request error handling

`_send_request_to_nbp_api` from `app/services/api_communication_service.py`.
The outcome of `requests.get` + `raise_for_status()` + `.json()` for a single
request is embedded as an inductive: the `try` body's result on success, or
the exception class raised.  The `except` clauses catch `Timeout`,
`ConnectionError`, `HTTPError` (any status; 404 logged as no-data) and
`RequestException`, each falling through to `return []`; anything outside the
`requests` exception hierarchy propagates (`Except.error`). -/

inductive RespBody
  | dict (item : ℕ)        -- response.json() was a dict: wrapped in a list
  | arr (items : List ℕ)   -- response.json() was already a list
deriving DecidableEq

inductive ReqOutcome
  | success (body : RespBody)
  | timeout                 -- requests.exceptions.Timeout
  | connectionError         -- requests.exceptions.ConnectionError
  | httpError (status : ℕ)  -- requests.exceptions.HTTPError
  | requestError            -- any other requests.exceptions.RequestException
  | otherError              -- any exception outside RequestException
deriving DecidableEq

def send_request_to_nbp_api : ReqOutcome → Except Unit (List ℕ)
  | .success (.dict item) => .ok [item]
  | .success (.arr items) => .ok items
  | .timeout => .ok []
  | .connectionError => .ok []
  | .httpError _ => .ok []
  | .requestError => .ok []
  | .otherError => .error ()

/-- C7 counterexample: a request-level protocol error (`RequestException`) and
a non-404 HTTP error are both swallowed into the empty result, not propagated
as the claim states. -/
theorem c7_request_exception_swallowed_cex :
    send_request_to_nbp_api .requestError = .ok [] ∧
    send_request_to_nbp_api (.httpError 500) = .ok [] ∧
    send_request_to_nbp_api .requestError ≠ .error () := by
  refine ⟨rfl, rfl, by simp [send_request_to_nbp_api]⟩

/-- C7 (amended): transient transport failures, HTTP errors of every status
(including the no-data 404) and all other request-level exceptions degrade to
the empty result for that request; only failures outside the requests
exception hierarchy propagate to the caller. -/
theorem c7_error_degradation_amended :
    send_request_to_nbp_api .timeout = .ok [] ∧
    send_request_to_nbp_api .connectionError = .ok [] ∧
    (∀ status : ℕ, send_request_to_nbp_api (.httpError status) = .ok []) ∧
    send_request_to_nbp_api .requestError = .ok [] ∧
    (∀ o : ReqOutcome, send_request_to_nbp_api o = .error () ↔ o = .otherError) := by
  refine ⟨rfl, rfl, fun _ => rfl, rfl, ?_⟩
  intro o
  cases o with
  | success body => cases body <;> simp [send_request_to_nbp_api]
  | timeout => simp [send_request_to_nbp_api]
  | connectionError => simp [send_request_to_nbp_api]
  | httpError status => simp [send_request_to_nbp_api]
  | requestError => simp [send_request_to_nbp_api]
  | otherError => simp [send_request_to_nbp_api]

/-! ## Analytical report rendering

`_generate_json_report_with_analytical_data` and
`_generate_csv_report_with_analytical_data` from
`app/services/report_generator_service.py`.  Both test
`if analytical_data[change_type].value and analytical_data[change_type].curr_code`
with Python truthiness: `float('-inf')` is truthy, `0.0` is falsy, `None` and
the empty tuple are falsy.  The rendered entry is `some (value, code)` for the
full entry (two JSON fields / two CSV lines) and `none` for the
`{change_type: None}` entry (single `None` CSV line). -/

/-- Python truthiness of the `value` field (`none` models `-inf`, truthy). -/
def truthy_value : Option ℚ → Bool
  | none => true
  | some v => decide (v ≠ 0)

/-- Python truthiness of the `curr_code` field. -/
def truthy_code : Option ℕ → Bool
  | none => false
  | some _ => true

def analytical_entry_json (ext : CurrMap) : Option (Option ℚ × Option ℕ) :=
  if truthy_value ext.value && truthy_code ext.curr_code then
    some (ext.value, ext.curr_code)
  else none

def analytical_entry_csv (ext : CurrMap) : Option (Option ℚ × Option ℕ) :=
  if truthy_value ext.value && truthy_code ext.curr_code then
    some (ext.value, ext.curr_code)
  else none

/-- C8 failing input: the zero-change extremum `curr_map(code 7, 0.0)` renders
as the bare `None` entry in both report formats, identical to the rendering of
the no-data extremum `curr_map(None, -inf)` — the two cases are not
distinguishable in the output, because `0.0` is falsy in the
`value and curr_code` test. -/
theorem c8_zero_extremum_rendered_as_none :
    analytical_entry_json ⟨some 7, some 0⟩ = none ∧
    analytical_entry_json ⟨none, none⟩ = none ∧
    analytical_entry_json ⟨some 7, some 0⟩ = analytical_entry_json ⟨none, none⟩ ∧
    analytical_entry_csv ⟨some 7, some 0⟩ = none ∧
    analytical_entry_csv ⟨some 7, some 0⟩ = analytical_entry_csv ⟨none, none⟩ := by
  refine ⟨rfl, rfl, rfl, rfl, rfl⟩

end ExchangeRates
